import Mathlib

/- Verification of the markdown parsing engine (src/parser.rs), the HTML
   rendering engine (src/html_writer.rs) and the title extraction used by the
   server layer (src/server.rs) of the wtf repository.

   The Rust code is shallowly embedded: machine integers (u8 levels, usize
   positions) become Nat (no overflow is reachable: the heading level is capped
   at 6 by the scan and positions only grow by input length), Rust Vec/String
   become List/String, and Result becomes Except.  The Rust parser keeps a
   Vec<char> plus a cursor index and only ever reads at or after the cursor, so
   the parser state is embedded as the remaining character suffix together with
   the absolute position (used for error reporting).  The mutually recursive
   descent loops of the Rust code, which terminate because every iteration
   consumes at least one character, are embedded with an explicit fuel
   parameter; the public parse entry point supplies fuel that is far larger
   than any run can consume (each fuel decrement consumes input or enters a
   construct that does). -/

namespace Wtf

/-- The apostrophe character (ASCII 39). -/
def apos : Char := Char.ofNat 39

/-- ParseError from src/parser.rs. -/
inductive ParseError where
  | UnexpectedEndOfInput (context : String)
  | UnclosedDelimiter (delimiter : String) (position : Nat)
  | InvalidHeadingLevel (level : Nat)
  | MalformedLink (position : Nat)
  | MalformedImage (position : Nat)


/-- InlineNode from src/parser.rs. -/
inductive InlineNode where
  | Text (s : String)
  | LineBreak
  | Bold (children : List InlineNode)
  | Italic (children : List InlineNode)
  | Link (text : List InlineNode) (url : String)


/-- BlockNode from src/parser.rs. -/
inductive BlockNode where
  | Paragraph (inlines : List InlineNode)
  | Image (alt_text : String) (url : String)


/-- Section from src/parser.rs. -/
structure Section where
  level : Nat
  title : List InlineNode
  content : List BlockNode
  subsections : List Section


/-- Document from src/parser.rs. -/
structure Document where
  content : List BlockNode
  sections : List Section


/-- Parser state (struct MarkdownParser in src/parser.rs): the Rust code keeps
the full Vec<char> plus a cursor index and only accesses characters at or after
the cursor; here `rem` is the suffix of characters from the cursor on and `pos`
is the absolute cursor position (used in error values). -/
structure MarkdownParser where
  rem : List Char
  pos : Nat


/-- MarkdownParser::peek. -/
def MarkdownParser.peek (σ : MarkdownParser) : Option Char := σ.rem.head?

/-- MarkdownParser::peek_at. -/
def MarkdownParser.peek_at (σ : MarkdownParser) (offset : Nat) : Option Char :=
  σ.rem[offset]?

/-- MarkdownParser::advance (the returned character is unused at call sites). -/
def MarkdownParser.advance (σ : MarkdownParser) : MarkdownParser :=
  ⟨σ.rem.tail, σ.pos + 1⟩

/-- MarkdownParser::is_eof. -/
def MarkdownParser.is_eof (σ : MarkdownParser) : Bool := σ.rem.isEmpty

/-- MarkdownParser::starts_with: slice comparison against the characters of the
probe (false when fewer characters remain than the probe's length, since then
the truncated take has a different length). -/
def MarkdownParser.starts_with (σ : MarkdownParser) (s : List Char) : Bool :=
  decide (σ.rem.take s.length = s)

/-- BOLD_DELIM as a character list. -/
def BOLD_DELIM : List Char := ['*', '*']

/-- MarkdownParser::skip_empty_lines (the state is passed as its two fields so
that the recursion is structural on the remaining characters). -/
def skip_empty_lines : List Char → Nat → MarkdownParser
  | [], p => ⟨[], p⟩
  | ch :: rest, p =>
    if ch = '\n' then skip_empty_lines rest (p + 1) else ⟨ch :: rest, p⟩

/-- MarkdownParser::is_heading. -/
def is_heading (σ : MarkdownParser) : Bool := decide (σ.peek = some '#')

/-- The scanning loop of MarkdownParser::peek_heading_level: count consecutive
'#' characters, capped at MAX_HEADING_LEVEL = 6, without consuming input. -/
def peek_heading_level_loop : List Char → Nat → Nat
  | [], level => level
  | ch :: rest, level =>
    if ch = '#' ∧ level < 6 then peek_heading_level_loop rest (level + 1) else level

/-- MarkdownParser::peek_heading_level. -/
def peek_heading_level (σ : MarkdownParser) : Nat :=
  peek_heading_level_loop σ.rem 0

/-- The counting loop of MarkdownParser::parse_heading_level (consuming). -/
def parse_heading_level_loop : List Char → Nat → Nat → Nat × MarkdownParser
  | [], p, level => (level, ⟨[], p⟩)
  | ch :: rest, p, level =>
    if ch = '#' ∧ level < 6 then parse_heading_level_loop rest (p + 1) (level + 1)
    else (level, ⟨ch :: rest, p⟩)

/-- MarkdownParser::parse_heading_level: zero consecutive '#' is
InvalidHeadingLevel (MIN_HEADING_LEVEL = 1). -/
def parse_heading_level (σ : MarkdownParser) : Except ParseError (Nat × MarkdownParser) :=
  let r := parse_heading_level_loop σ.rem σ.pos 0
  if r.1 < 1 then .error (.InvalidHeadingLevel r.1) else .ok r

/-- MarkdownParser::parse_text_until (always Ok in the Rust code, so embedded
as a pure function): accumulate characters until one of the stop strings
matches or end of input. -/
def parse_text_until (stops : List (List Char)) : List Char → Nat → List Char × MarkdownParser
  | [], p => ([], ⟨[], p⟩)
  | ch :: rest, p =>
    if stops.any (fun s => MarkdownParser.starts_with ⟨ch :: rest, p⟩ s) then
      ([], ⟨ch :: rest, p⟩)
    else
      let r := parse_text_until stops rest (p + 1)
      (ch :: r.1, r.2)

/-- MarkdownParser::parse_text_inline (always Ok in the Rust code): accumulate
plain text, stopping at a newline, italic delimiter or link opener. -/
def parse_text_inline : List Char → Nat → List Char × MarkdownParser
  | [], p => ([], ⟨[], p⟩)
  | ch :: rest, p =>
    if ch = '\n' ∨ ch = '*' ∨ ch = '[' then ([], ⟨ch :: rest, p⟩)
    else
      let r := parse_text_inline rest (p + 1)
      (ch :: r.1, r.2)

/-- The alt-text loop of MarkdownParser::parse_image_block: a backslash escapes
the following character (both are consumed, the escaped character is emitted
literally); an unescaped ']' is consumed and ends the text; end of input also
ends the text (without consuming a ']'). -/
def parse_alt_text : List Char → Nat → List Char × MarkdownParser
  | [], p => ([], ⟨[], p⟩)
  | ch :: rest, p =>
    if ch = '\\' then
      match rest with
      | [] => ([], ⟨[], p + 1⟩)
      | c2 :: rest2 =>
        let r := parse_alt_text rest2 (p + 2)
        (c2 :: r.1, r.2)
    else if ch = ']' then ([], ⟨rest, p + 1⟩)
    else
      let r := parse_alt_text rest (p + 1)
      (ch :: r.1, r.2)

/-- The URL loop of MarkdownParser::parse_image_block: accumulate until ')'
(consumed); a newline is MalformedImage; end of input ends the URL without
error. -/
def parse_image_url (start_pos : Nat) : List Char → Nat → Except ParseError (List Char × MarkdownParser)
  | [], p => .ok ([], ⟨[], p⟩)
  | ch :: rest, p =>
    if ch = ')' then .ok ([], ⟨rest, p + 1⟩)
    else if ch = '\n' then .error (.MalformedImage start_pos)
    else do
      let r ← parse_image_url start_pos rest (p + 1)
      pure (ch :: r.1, r.2)

/-- The URL loop of MarkdownParser::parse_link together with the ')' check that
follows it: accumulate until ')' (consumed); a newline before ')' is
MalformedLink, and so is end of input (the post-loop check finds no ')'). -/
def parse_link_url (start_pos : Nat) : List Char → Nat → Except ParseError (List Char × MarkdownParser)
  | [], _ => .error (.MalformedLink start_pos)
  | ch :: rest, p =>
    if ch = ')' then .ok ([], ⟨rest, p + 1⟩)
    else if ch = '\n' then .error (.MalformedLink start_pos)
    else do
      let r ← parse_link_url start_pos rest (p + 1)
      pure (ch :: r.1, r.2)

/-- str::trim of Rust, on character lists: strip whitespace from both ends. -/
def trim (cs : List Char) : List Char :=
  ((cs.dropWhile Char.isWhitespace).reverse.dropWhile Char.isWhitespace).reverse

/-- MarkdownParser::parse_image_block: consume "![", the alt text, require '(',
the URL (trimmed), and a trailing newline if present. -/
def parse_image_block (σ : MarkdownParser) : Except ParseError (BlockNode × MarkdownParser) :=
  let start_pos := σ.pos
  let σ1 := σ.advance.advance
  let r := parse_alt_text σ1.rem σ1.pos
  if r.2.peek = some '(' then
    match parse_image_url start_pos r.2.advance.rem r.2.advance.pos with
    | .error e => .error e
    | .ok (url, σ3) =>
      let σ4 := if σ3.peek = some '\n' then σ3.advance else σ3
      .ok (.Image (String.mk r.1) (String.mk (trim url)), σ4)
  else .error (.MalformedImage start_pos)

/-- Fuel-exhaustion marker; the entry point `parse` supplies more fuel than any
run can consume, so this error is unreachable from `parse`. -/
def fuel_error : ParseError := .UnexpectedEndOfInput "fuel"

mutual

/-- MarkdownParser::parse_inline_content: the dispatch loop over one line.  The
loop is embedded recursively: the node parsed by one iteration is consed onto
the nodes of the remaining iterations, which equals the Rust push-then-extend
accumulation. -/
def parse_inline_content : Nat → MarkdownParser → Except ParseError (List InlineNode × MarkdownParser)
  | 0, _ => .error fuel_error
  | fuel + 1, σ =>
    if σ.is_eof then .ok ([], σ)
    else if σ.peek = some '\n' then .ok ([], σ)
    else if σ.starts_with BOLD_DELIM then do
      let r ← parse_bold fuel σ
      let rs ← parse_inline_content fuel r.2
      pure (r.1 :: rs.1, rs.2)
    else if σ.peek = some '*' ∧ ¬ σ.starts_with BOLD_DELIM then do
      let r ← parse_italic fuel σ
      let rs ← parse_inline_content fuel r.2
      pure (r.1 :: rs.1, rs.2)
    else if σ.peek = some '[' then do
      let r ← parse_link fuel σ
      let rs ← parse_inline_content fuel r.2
      pure (r.1 :: rs.1, rs.2)
    else
      let t := parse_text_inline σ.rem σ.pos
      do
        let rs ← parse_inline_content fuel t.2
        pure ((if t.1.isEmpty then rs.1 else .Text (String.mk t.1) :: rs.1), rs.2)

/-- MarkdownParser::parse_bold: record the opening position, consume "**", run
the closing scan. -/
def parse_bold : Nat → MarkdownParser → Except ParseError (InlineNode × MarkdownParser)
  | 0, _ => .error fuel_error
  | fuel + 1, σ => parse_bold_loop fuel σ.pos [] σ.advance.advance

/-- The closing scan of MarkdownParser::parse_bold: until "**"; newline or end
of input is UnclosedDelimiter for "**"; only italic, link and text may nest. -/
def parse_bold_loop : Nat → Nat → List InlineNode → MarkdownParser → Except ParseError (InlineNode × MarkdownParser)
  | 0, _, _, _ => .error fuel_error
  | fuel + 1, start_pos, children, σ =>
    if σ.is_eof then .error (.UnclosedDelimiter "**" start_pos)
    else if σ.starts_with BOLD_DELIM then .ok (.Bold children, σ.advance.advance)
    else if σ.peek = some '\n' then .error (.UnclosedDelimiter "**" start_pos)
    else if σ.peek = some '*' ∧ ¬ σ.starts_with BOLD_DELIM then do
      let r ← parse_italic fuel σ
      parse_bold_loop fuel start_pos (children ++ [r.1]) r.2
    else if σ.peek = some '[' then do
      let r ← parse_link fuel σ
      parse_bold_loop fuel start_pos (children ++ [r.1]) r.2
    else
      let t := parse_text_until [BOLD_DELIM, ['*'], ['['], ['\n']] σ.rem σ.pos
      parse_bold_loop fuel start_pos
        (children ++ if t.1.isEmpty then [] else [.Text (String.mk t.1)]) t.2

/-- MarkdownParser::parse_italic: record the opening position, consume "*", run
the closing scan. -/
def parse_italic : Nat → MarkdownParser → Except ParseError (InlineNode × MarkdownParser)
  | 0, _ => .error fuel_error
  | fuel + 1, σ => parse_italic_loop fuel σ.pos [] σ.advance

/-- The closing scan of MarkdownParser::parse_italic: until a single '*' that
is not part of "**"; newline or end of input is UnclosedDelimiter for "*"; only
bold, link and text may nest. -/
def parse_italic_loop : Nat → Nat → List InlineNode → MarkdownParser → Except ParseError (InlineNode × MarkdownParser)
  | 0, _, _, _ => .error fuel_error
  | fuel + 1, start_pos, children, σ =>
    if σ.is_eof then .error (.UnclosedDelimiter "*" start_pos)
    else if σ.peek = some '*' ∧ ¬ σ.starts_with BOLD_DELIM then
      .ok (.Italic children, σ.advance)
    else if σ.peek = some '\n' then .error (.UnclosedDelimiter "*" start_pos)
    else if σ.starts_with BOLD_DELIM then do
      let r ← parse_bold fuel σ
      parse_italic_loop fuel start_pos (children ++ [r.1]) r.2
    else if σ.peek = some '[' then do
      let r ← parse_link fuel σ
      parse_italic_loop fuel start_pos (children ++ [r.1]) r.2
    else
      let t := parse_text_until [['*'], ['['], ['\n']] σ.rem σ.pos
      parse_italic_loop fuel start_pos
        (children ++ if t.1.isEmpty then [] else [.Text (String.mk t.1)]) t.2

/-- MarkdownParser::parse_link: consume '[', parse the link text until an
unescaped ']' (any ']' in fact: no escaping exists here), require ']' and '(',
then the URL (trimmed). -/
def parse_link : Nat → MarkdownParser → Except ParseError (InlineNode × MarkdownParser)
  | 0, _ => .error fuel_error
  | fuel + 1, σ => do
    let start_pos := σ.pos
    let r ← parse_link_text_loop fuel start_pos [] σ.advance
    if r.2.peek = some ']' then
      let σ2 := r.2.advance
      if σ2.peek = some '(' then do
        let u ← parse_link_url start_pos σ2.advance.rem σ2.advance.pos
        pure (.Link r.1 (String.mk (trim u.1)), u.2)
      else throw (.MalformedLink start_pos)
    else throw (.MalformedLink start_pos)

/-- The link-text loop of MarkdownParser::parse_link: stops (without consuming)
at ']' or end of input; a newline is MalformedLink; bold, italic and text may
nest but not another link. -/
def parse_link_text_loop : Nat → Nat → List InlineNode → MarkdownParser → Except ParseError (List InlineNode × MarkdownParser)
  | 0, _, _, _ => .error fuel_error
  | fuel + 1, start_pos, text, σ =>
    if σ.is_eof ∨ σ.peek = some ']' then .ok (text, σ)
    else if σ.peek = some '\n' then .error (.MalformedLink start_pos)
    else if σ.starts_with BOLD_DELIM then do
      let r ← parse_bold fuel σ
      parse_link_text_loop fuel start_pos (text ++ [r.1]) r.2
    else if σ.peek = some '*' ∧ ¬ σ.starts_with BOLD_DELIM then do
      let r ← parse_italic fuel σ
      parse_link_text_loop fuel start_pos (text ++ [r.1]) r.2
    else
      let t := parse_text_until [BOLD_DELIM, ['*'], [']'], ['\n']] σ.rem σ.pos
      parse_link_text_loop fuel start_pos
        (text ++ if t.1.isEmpty then [] else [.Text (String.mk t.1)]) t.2

end

/-- The line loop of MarkdownParser::parse_paragraph: collect one line's inline
content, insert LineBreak between non-empty lines, stop at a blank line, end of
input or a heading. -/
def parse_paragraph_loop : Nat → List InlineNode → Bool → MarkdownParser → Except ParseError (BlockNode × MarkdownParser)
  | 0, _, _, _ => .error fuel_error
  | fuel + 1, acc, first_line, σ => do
    let r ← parse_inline_content fuel σ
    let acc2 := if r.1.isEmpty then acc
                else acc ++ (if first_line then [] else [.LineBreak]) ++ r.1
    let first2 := if r.1.isEmpty then first_line else false
    if r.2.peek = some '\n' then
      let σ2 := r.2.advance
      if σ2.peek = some '\n' ∨ σ2.is_eof ∨ is_heading σ2 then
        pure (.Paragraph acc2, σ2)
      else parse_paragraph_loop fuel acc2 first2 σ2
    else pure (.Paragraph acc2, r.2)

/-- MarkdownParser::parse_paragraph. -/
def parse_paragraph (fuel : Nat) (σ : MarkdownParser) : Except ParseError (BlockNode × MarkdownParser) :=
  parse_paragraph_loop fuel [] true σ

/-- MarkdownParser::parse_block: an image block exactly when the next two
characters are '!' '['; otherwise a paragraph. -/
def parse_block (fuel : Nat) (σ : MarkdownParser) : Except ParseError (BlockNode × MarkdownParser) :=
  if σ.peek = some '!' ∧ σ.peek_at 1 = some '[' then parse_image_block σ
  else parse_paragraph fuel σ

/-- MarkdownParser::parse_heading_line: heading level, one optional space, the
inline-formatted title, and a trailing newline if present. -/
def parse_heading_line (fuel : Nat) (σ : MarkdownParser) : Except ParseError ((Nat × List InlineNode) × MarkdownParser) := do
  let r ← parse_heading_level σ
  let σ2 := if r.2.peek = some ' ' then r.2.advance else r.2
  let t ← parse_inline_content fuel σ2
  let σ4 := if t.2.peek = some '\n' then t.2.advance else t.2
  pure ((r.1, t.1), σ4)

mutual

/-- MarkdownParser::parse_section_tree: parse the heading line, then the
content/subsection loop. -/
def parse_section_tree : Nat → MarkdownParser → Except ParseError (Section × MarkdownParser)
  | 0, _ => .error fuel_error
  | fuel + 1, σ => do
    let h ← parse_heading_line fuel σ
    parse_section_loop fuel h.1.1 h.1.2 [] [] h.2

/-- The body loop of MarkdownParser::parse_section_tree: skip blank lines; stop
at end of input; a strictly deeper heading becomes a subsection, any other
heading ends the section (unconsumed); otherwise parse a content block. -/
def parse_section_loop : Nat → Nat → List InlineNode → List BlockNode → List Section → MarkdownParser → Except ParseError (Section × MarkdownParser)
  | 0, _, _, _, _, _ => .error fuel_error
  | fuel + 1, level, title, content, subsections, σ =>
    let σ1 := skip_empty_lines σ.rem σ.pos
    if σ1.is_eof then .ok (⟨level, title, content, subsections⟩, σ1)
    else if is_heading σ1 then
      if level < peek_heading_level σ1 then do
        let r ← parse_section_tree fuel σ1
        parse_section_loop fuel level title content (subsections ++ [r.1]) r.2
      else .ok (⟨level, title, content, subsections⟩, σ1)
    else do
      let r ← parse_block fuel σ1
      parse_section_loop fuel level title (content ++ [r.1]) subsections r.2

end

/-- MarkdownParser::parse_all_sections (the accumulator is the sections list
built so far). -/
def parse_all_sections : Nat → List Section → MarkdownParser → Except ParseError (List Section × MarkdownParser)
  | 0, _, _ => .error fuel_error
  | fuel + 1, acc, σ =>
    if σ.is_eof then .ok (acc, σ)
    else
      let σ1 := skip_empty_lines σ.rem σ.pos
      if σ1.is_eof then .ok (acc, σ1)
      else if is_heading σ1 then do
        let r ← parse_section_tree fuel σ1
        parse_all_sections fuel (acc ++ [r.1]) r.2
      else .ok (acc, σ1)

/-- MarkdownParser::parse_document (the accumulator is the preamble built so
far): blocks are collected into the preamble until the first heading; from the
first heading on everything belongs to sections. -/
def parse_document : Nat → List BlockNode → MarkdownParser → Except ParseError Document
  | 0, _, _ => .error fuel_error
  | fuel + 1, content, σ =>
    if σ.is_eof then .ok ⟨content, []⟩
    else
      let σ1 := skip_empty_lines σ.rem σ.pos
      if σ1.is_eof then .ok ⟨content, []⟩
      else if is_heading σ1 then do
        let r ← parse_all_sections fuel [] σ1
        pure ⟨content, r.1⟩
      else do
        let r ← parse_block fuel σ1
        parse_document fuel (content ++ [r.1]) r.2

/-- MarkdownParser::parse, the entry point.  The supplied fuel dominates any
possible consumption: every fuel decrement along a call path either consumes at
least one input character or opens a construct whose delimiter was consumed. -/
def parse (text : String) : Except ParseError Document :=
  parse_document (2 * text.length + 64) [] ⟨text.data, 0⟩

/-- HtmlError from src/html_writer.rs. -/
inductive HtmlError where
  | InvalidHeadingLevel (level : Nat)


/-- One pass of Rust's str::replace with a single-character pattern: every
occurrence of `c` is replaced by `rep`, other characters are kept. -/
def replace_char : List Char → Char → List Char → List Char
  | [], _, _ => []
  | ch :: rest, c, rep => (if ch = c then rep else [ch]) ++ replace_char rest c rep

/-- escape_html from src/html_writer.rs: the five sequential replacements, the
ampersand first, then the angle brackets, the double quote and the
apostrophe. -/
def escape_html (content : String) : String :=
  String.mk
    (replace_char
      (replace_char
        (replace_char
          (replace_char
            (replace_char content.data '&' "&amp;".data)
            '<' "&lt;".data)
          '>' "&gt;".data)
        '"' "&quot;".data)
      apos "&#39;".data)

mutual

/-- HtmlWriter::render_inline.  The Rust function returns Result but contains
no error construction (nor do its callees), so it is embedded as a pure
function. -/
def render_inline : InlineNode → String
  | .Text text => escape_html text
  | .LineBreak => "<br>"
  | .Bold children => "<strong>" ++ render_inline_nodes children ++ "</strong>"
  | .Italic children => "<em>" ++ render_inline_nodes children ++ "</em>"
  | .Link text url =>
    "<a href=\"" ++ escape_html url ++ "\">" ++ render_inline_nodes text ++ "</a>"

/-- HtmlWriter::render_inline_nodes: concatenation of the renderings. -/
def render_inline_nodes : List InlineNode → String
  | [] => ""
  | n :: rest => render_inline n ++ render_inline_nodes rest

end

/-- HtmlWriter::render_block (Result in Rust, but no error is constructed). -/
def render_block : BlockNode → String
  | .Paragraph inlines => "<p>" ++ render_inline_nodes inlines ++ "</p>"
  | .Image alt_text url =>
    "<img src=\"" ++ escape_html url ++ "\" alt=\"" ++ escape_html alt_text ++ "\">"

/-- Concatenation of block renderings (the loops in HtmlWriter::write_html and
HtmlWriter::render_section). -/
def render_blocks : List BlockNode → String
  | [] => ""
  | b :: rest => render_block b ++ render_blocks rest

/-- HtmlWriter::render_heading: levels outside 1..=6 are
HtmlError::InvalidHeadingLevel; otherwise the fixed tag pair for the level
wraps the inline-rendered title.  (The catch-all arm of the tag table is the
level-6 pair; in Rust it is level 6 plus an unreachable arm, and levels other
than 1..=6 were already rejected.) -/
def render_heading (level : Nat) (title : List InlineNode) : Except HtmlError String :=
  if level < 1 ∨ 6 < level then .error (.InvalidHeadingLevel level)
  else
    let content := render_inline_nodes title
    let tags : String × String :=
      match level with
      | 1 => ("<h1>", "</h1>")
      | 2 => ("<h2>", "</h2>")
      | 3 => ("<h3>", "</h3>")
      | 4 => ("<h4>", "</h4>")
      | 5 => ("<h5>", "</h5>")
      | _ => ("<h6>", "</h6>")
    .ok (tags.1 ++ content ++ tags.2)

mutual

/-- HtmlWriter::render_section: heading, then content blocks, then subsections,
with no separators. -/
def render_section : Section → Except HtmlError String
  | ⟨level, title, content, subsections⟩ => do
    let h ← render_heading level title
    let subs ← render_sections subsections
    pure (h ++ render_blocks content ++ subs)

/-- Concatenation of section renderings (the loops in HtmlWriter::write_html
and HtmlWriter::render_section). -/
def render_sections : List Section → Except HtmlError String
  | [] => pure ""
  | s :: rest => do
    let a ← render_section s
    let b ← render_sections rest
    pure (a ++ b)

end

/-- HtmlWriter::write_html: preamble blocks in order, then all sections in
order. -/
def write_html (document : Document) : Except HtmlError String := do
  let subs ← render_sections document.sections
  pure (render_blocks document.content ++ subs)

/-- DEFAULT_TITLE from src/server.rs. -/
def DEFAULT_TITLE : String := "Page"

mutual

/-- The per-node case of inline_nodes_to_text from src/server.rs: a Text leaf
contributes its string, a LineBreak a single space, Bold/Italic/Link the
concatenation of their children (the Link url is dropped). -/
def inline_node_to_text : InlineNode → String
  | .Text t => t
  | .LineBreak => " "
  | .Bold children => inline_nodes_to_text children
  | .Italic children => inline_nodes_to_text children
  | .Link text _ => inline_nodes_to_text text

/-- inline_nodes_to_text from src/server.rs: concatenation over the nodes. -/
def inline_nodes_to_text : List InlineNode → String
  | [] => ""
  | n :: rest => inline_node_to_text n ++ inline_nodes_to_text rest

end

/-- extract_title from src/server.rs: the plain text of the first top-level
section's title when that section exists and has level 1, otherwise
DEFAULT_TITLE. -/
def extract_title (document : Document) : String :=
  match document.sections.head? with
  | some sec => if sec.level = 1 then inline_nodes_to_text sec.title else DEFAULT_TITLE
  | none => DEFAULT_TITLE

mutual

/-- The parent-child level invariant of the section tree: every subsection has
a level strictly greater than its parent's, recursively. -/
def sectionWF : Section → Bool
  | ⟨level, _, _, subsections⟩ => subsWF level subsections

/-- subsWF level subs: every section in subs has level strictly greater than
the given level and itself satisfies sectionWF. -/
def subsWF (level : Nat) : List Section → Bool
  | [] => true
  | s :: rest => (decide (level < s.level) && sectionWF s) && subsWF level rest

end

mutual

/-- All heading levels in the section tree are between 1 and 6 inclusive. -/
def levels_ok : Section → Bool
  | ⟨level, _, _, subsections⟩ =>
    (decide (1 ≤ level) && decide (level ≤ 6)) && levels_ok_list subsections

/-- levels_ok for every section of a list. -/
def levels_ok_list : List Section → Bool
  | [] => true
  | s :: rest => levels_ok s && levels_ok_list rest

end

/-- Whether an Except value is a success. -/
def except_is_ok : Except ε α → Bool
  | .ok _ => true
  | .error _ => false

/- ======================================================================
   Helper lemmas
   ====================================================================== -/

theorem except_bind_ok (a : α) (f : α → Except ε β) : (Except.ok a >>= f) = f a := rfl

theorem except_bind_error (e : ε) (f : α → Except ε β) :
    ((Except.error e : Except ε α) >>= f) = .error e := rfl

theorem except_pure (a : α) : (pure a : Except ε α) = .ok a := rfl

theorem mem_replace_char {x c : Char} {cs rep : List Char}
    (h : x ∈ replace_char cs c rep) : (x ∈ cs ∧ x ≠ c) ∨ x ∈ rep := by
  induction cs with
  | nil => simp [replace_char] at h
  | cons a rest ih =>
    simp only [replace_char, List.mem_append] at h
    rcases h with h | h
    · by_cases hac : a = c
      · subst hac
        simp only [if_pos rfl] at h
        exact .inr h
      · simp only [if_neg hac, List.mem_singleton] at h
        subst h
        exact .inl ⟨List.mem_cons_self _ _, hac⟩
    · rcases ih h with ⟨hmem, hne⟩ | hrep
      · exact .inl ⟨List.mem_cons_of_mem _ hmem, hne⟩
      · exact .inr hrep

theorem not_mem_replace_char {x c : Char} {rep : List Char} (cs : List Char)
    (h1 : x ∉ rep) (h2 : x = c ∨ x ∉ cs) : x ∉ replace_char cs c rep := by
  intro hx
  rcases mem_replace_char hx with ⟨hmem, hne⟩ | hr
  · rcases h2 with rfl | hncs
    · exact hne rfl
    · exact hncs hmem
  · exact h1 hr

theorem replace_char_id {c : Char} {rep : List Char} (cs : List Char)
    (h : c ∉ cs) : replace_char cs c rep = cs := by
  induction cs with
  | nil => rfl
  | cons a rest ih =>
    have hac : ¬ a = c := fun e => h (e ▸ List.mem_cons_self a rest)
    simp only [replace_char, if_neg hac, List.singleton_append, List.cons.injEq, true_and]
    exact ih fun hm => h (List.mem_cons_of_mem _ hm)

theorem escape_html_no_lt (s : String) : '<' ∉ (escape_html s).data := by
  simp only [escape_html]
  apply not_mem_replace_char _ (by decide)
  refine .inr (not_mem_replace_char _ (by decide) (.inr ?_))
  refine not_mem_replace_char _ (by decide) (.inr ?_)
  exact not_mem_replace_char _ (by decide) (.inl rfl)

theorem escape_html_no_gt (s : String) : '>' ∉ (escape_html s).data := by
  simp only [escape_html]
  apply not_mem_replace_char _ (by decide)
  refine .inr (not_mem_replace_char _ (by decide) (.inr ?_))
  exact not_mem_replace_char _ (by decide) (.inl rfl)

theorem escape_html_no_quot (s : String) : '"' ∉ (escape_html s).data := by
  simp only [escape_html]
  apply not_mem_replace_char _ (by decide)
  exact .inr (not_mem_replace_char _ (by decide) (.inl rfl))

theorem escape_html_no_apos (s : String) : apos ∉ (escape_html s).data := by
  simp only [escape_html]
  exact not_mem_replace_char _ (by decide) (.inl rfl)

theorem no_apos_append {a b : String} (ha : apos ∉ a.data) (hb : apos ∉ b.data) :
    apos ∉ (a ++ b).data := by
  rw [String.data_append]
  simp only [List.mem_append]
  exact fun h => h.elim ha hb

mutual

theorem render_inline_no_apos : (n : InlineNode) → apos ∉ (render_inline n).data
  | .Text t => by
    simpa only [render_inline] using escape_html_no_apos t
  | .LineBreak => by
    simp only [render_inline]
    decide
  | .Bold children => by
    simp only [render_inline]
    exact no_apos_append (no_apos_append (by decide) (render_inline_nodes_no_apos children))
      (by decide)
  | .Italic children => by
    simp only [render_inline]
    exact no_apos_append (no_apos_append (by decide) (render_inline_nodes_no_apos children))
      (by decide)
  | .Link text url => by
    simp only [render_inline]
    exact no_apos_append
      (no_apos_append
        (no_apos_append (no_apos_append (by decide) (escape_html_no_apos url)) (by decide))
        (render_inline_nodes_no_apos text))
      (by decide)

theorem render_inline_nodes_no_apos : (l : List InlineNode) → apos ∉ (render_inline_nodes l).data
  | [] => by
    simp only [render_inline_nodes]
    decide
  | n :: rest => by
    simp only [render_inline_nodes]
    exact no_apos_append (render_inline_no_apos n) (render_inline_nodes_no_apos rest)

end

theorem render_block_no_apos (b : BlockNode) : apos ∉ (render_block b).data := by
  cases b with
  | Paragraph inlines =>
    simp only [render_block]
    exact no_apos_append (no_apos_append (by decide) (render_inline_nodes_no_apos inlines))
      (by decide)
  | Image alt_text url =>
    simp only [render_block]
    exact no_apos_append
      (no_apos_append
        (no_apos_append (no_apos_append (by decide) (escape_html_no_apos url)) (by decide))
        (escape_html_no_apos alt_text))
      (by decide)

theorem render_blocks_no_apos (l : List BlockNode) : apos ∉ (render_blocks l).data := by
  induction l with
  | nil =>
    simp only [render_blocks]
    decide
  | cons b rest ih =>
    simp only [render_blocks]
    exact no_apos_append (render_block_no_apos b) ih

theorem render_heading_no_apos (level : Nat) (title : List InlineNode) (s : String)
    (h : render_heading level title = .ok s) : apos ∉ s.data := by
  simp only [render_heading] at h
  split at h
  · exact absurd h (by simp)
  · simp only [Except.ok.injEq] at h
    subst h
    rcases level with _ | _ | _ | _ | _ | _ | level
    · exact no_apos_append (no_apos_append (by decide) (render_inline_nodes_no_apos title))
        (by decide)
    · exact no_apos_append (no_apos_append (by decide) (render_inline_nodes_no_apos title))
        (by decide)
    · exact no_apos_append (no_apos_append (by decide) (render_inline_nodes_no_apos title))
        (by decide)
    · exact no_apos_append (no_apos_append (by decide) (render_inline_nodes_no_apos title))
        (by decide)
    · exact no_apos_append (no_apos_append (by decide) (render_inline_nodes_no_apos title))
        (by decide)
    · exact no_apos_append (no_apos_append (by decide) (render_inline_nodes_no_apos title))
        (by decide)
    · exact no_apos_append
        (no_apos_append (by decide : apos ∉ ("<h6>" : String).data)
          (render_inline_nodes_no_apos title))
        (by decide : apos ∉ ("</h6>" : String).data)

mutual

theorem render_section_no_apos : (sec : Section) → ∀ s, render_section sec = .ok s →
    apos ∉ s.data
  | ⟨level, title, content, subsections⟩ => by
    intro s h
    simp only [render_section] at h
    cases hh : render_heading level title with
    | error e => rw [hh, except_bind_error] at h; exact absurd h (by simp)
    | ok hstr =>
      rw [hh, except_bind_ok] at h
      cases hs : render_sections subsections with
      | error e => rw [hs, except_bind_error] at h; exact absurd h (by simp)
      | ok sstr =>
        rw [hs, except_bind_ok, except_pure] at h
        simp only [Except.ok.injEq] at h
        subst h
        exact no_apos_append
          (no_apos_append (render_heading_no_apos level title hstr hh)
            (render_blocks_no_apos content))
          (render_sections_no_apos subsections sstr hs)

theorem render_sections_no_apos : (l : List Section) → ∀ s, render_sections l = .ok s →
    apos ∉ s.data
  | [] => by
    intro s h
    simp only [render_sections, except_pure, Except.ok.injEq] at h
    subst h
    decide
  | sec :: rest => by
    intro s h
    simp only [render_sections] at h
    cases h1 : render_section sec with
    | error e => rw [h1, except_bind_error] at h; exact absurd h (by simp)
    | ok a =>
      rw [h1, except_bind_ok] at h
      cases h2 : render_sections rest with
      | error e => rw [h2, except_bind_error] at h; exact absurd h (by simp)
      | ok b =>
        rw [h2, except_bind_ok, except_pure] at h
        simp only [Except.ok.injEq] at h
        subst h
        exact no_apos_append (render_section_no_apos sec a h1)
          (render_sections_no_apos rest b h2)

end

theorem write_html_no_apos (document : Document) (html : String)
    (h : write_html document = .ok html) : apos ∉ html.data := by
  simp only [write_html] at h
  cases hs : render_sections document.sections with
  | error e => rw [hs, except_bind_error] at h; exact absurd h (by simp)
  | ok sstr =>
    rw [hs, except_bind_ok, except_pure] at h
    simp only [Except.ok.injEq] at h
    subst h
    exact no_apos_append (render_blocks_no_apos document.content)
      (render_sections_no_apos document.sections sstr hs)

theorem replace_char_chain_id (s : String)
    (h : ∀ c ∈ s.data, c ≠ '&' ∧ c ≠ '<' ∧ c ≠ '>' ∧ c ≠ '"' ∧ c ≠ apos) :
    escape_html s = s := by
  have h1 : replace_char s.data '&' "&amp;".data = s.data :=
    replace_char_id _ fun hm => (h _ hm).1 rfl
  have h2 : replace_char s.data '<' "&lt;".data = s.data :=
    replace_char_id _ fun hm => (h _ hm).2.1 rfl
  have h3 : replace_char s.data '>' "&gt;".data = s.data :=
    replace_char_id _ fun hm => (h _ hm).2.2.1 rfl
  have h4 : replace_char s.data '"' "&quot;".data = s.data :=
    replace_char_id _ fun hm => (h _ hm).2.2.2.1 rfl
  have h5 : replace_char s.data apos "&#39;".data = s.data :=
    replace_char_id _ fun hm => (h _ hm).2.2.2.2 rfl
  simp only [escape_html, h1, h2, h3, h4, h5]

theorem inline_nodes_to_text_append (xs ys : List InlineNode) :
    inline_nodes_to_text (xs ++ ys) =
      inline_nodes_to_text xs ++ inline_nodes_to_text ys := by
  induction xs with
  | nil => simp [inline_nodes_to_text]
  | cons n rest ih =>
    simp only [List.cons_append, inline_nodes_to_text, List.append_eq]
    rw [ih, String.append_assoc]

/- ======================================================================
   Claim theorems
   ====================================================================== -/

/-- C1: the entity-escaping function applied to Text nodes and attribute
values performs the five substitutions with the ampersand first, so for every
input string the escaped output contains no '<', '>', '"' or apostrophe; and
since the renderer's fixed tag vocabulary contains no apostrophe and every
Text node and attribute value passes through escape_html exactly once, the
rendered HTML of any Document contains no apostrophe at all — in particular
none originating from node content. -/
theorem c1_escape_removes_specials :
    (∀ s : String, '<' ∉ (escape_html s).data ∧ '>' ∉ (escape_html s).data ∧
      '"' ∉ (escape_html s).data ∧ apos ∉ (escape_html s).data) ∧
    (∀ (document : Document) (html : String), write_html document = .ok html →
      apos ∉ html.data) :=
  ⟨fun s => ⟨escape_html_no_lt s, escape_html_no_gt s, escape_html_no_quot s,
    escape_html_no_apos s⟩,
   fun document html h => write_html_no_apos document html h⟩

/-- Witness for C1 at concrete inputs: the escape of "a<b" and the rendering
of a one-paragraph document whose text contains an apostrophe. -/
theorem c1_escape_removes_specials_witness :
    '<' ∉ (escape_html "a<b").data ∧
    apos ∉ ("<p>it&#39;s</p>" : String).data :=
  ⟨(c1_escape_removes_specials.1 "a<b").1,
   c1_escape_removes_specials.2 ⟨[.Paragraph [.Text "it's"]], []⟩ "<p>it&#39;s</p>" rfl⟩

/-- C9: escaping is not idempotent — escaping "&" twice differs from escaping
it once — and on strings containing none of the five escaped characters the
escaping is the identity, so each Text/attribute emission must apply it
exactly once. -/
theorem c9_escape_not_idempotent :
    escape_html (escape_html "&") ≠ escape_html "&" ∧
    (∀ s : String,
      (∀ c ∈ s.data, c ≠ '&' ∧ c ≠ '<' ∧ c ≠ '>' ∧ c ≠ '"' ∧ c ≠ apos) →
      escape_html s = s) :=
  ⟨by decide, fun s h => replace_char_chain_id s h⟩

/-- Witness for C9: the identity part applied to the five-character-free
string "abc". -/
theorem c9_escape_not_idempotent_witness : escape_html "abc" = "abc" :=
  c9_escape_not_idempotent.2 "abc" (by decide)

/-- C10: plain-text title extraction is the concatenation homomorphism — a
Text leaf contributes its string, a LineBreak a single space, Bold, Italic and
Link the recursive concatenation of their children (the Link url is dropped) —
and it is applied to the first top-level Section exactly when that section's
level is 1 (otherwise the default title is returned). -/
theorem c10_title_extraction :
    (∀ xs ys : List InlineNode, inline_nodes_to_text (xs ++ ys) =
      inline_nodes_to_text xs ++ inline_nodes_to_text ys) ∧
    (∀ s, inline_node_to_text (.Text s) = s) ∧
    inline_node_to_text .LineBreak = " " ∧
    (∀ children, inline_node_to_text (.Bold children) = inline_nodes_to_text children) ∧
    (∀ children, inline_node_to_text (.Italic children) = inline_nodes_to_text children) ∧
    (∀ text url, inline_node_to_text (.Link text url) = inline_nodes_to_text text) ∧
    (∀ (document : Document) (sec : Section), document.sections.head? = some sec →
      extract_title document =
        if sec.level = 1 then inline_nodes_to_text sec.title else DEFAULT_TITLE) := by
  refine ⟨inline_nodes_to_text_append, fun s => rfl, rfl, fun _ => rfl, fun _ => rfl,
    fun _ _ => rfl, ?_⟩
  intro document sec h
  simp only [extract_title, h]

/-- Witness for C10: the head-section part applied to a document whose first
section has level 1 and a formatted title. -/
theorem c10_title_extraction_witness :
    extract_title ⟨[], [⟨1, [.Bold [.Text "A"], .LineBreak, .Text "b"], [], []⟩]⟩ =
      if (1 : Nat) = 1 then
        inline_nodes_to_text [.Bold [.Text "A"], .LineBreak, .Text "b"]
      else DEFAULT_TITLE :=
  c10_title_extraction.2.2.2.2.2.2
    ⟨[], [⟨1, [.Bold [.Text "A"], .LineBreak, .Text "b"], [], []⟩]⟩
    ⟨1, [.Bold [.Text "A"], .LineBreak, .Text "b"], [], []⟩ rfl

/-- C4 counterexample: on the input given by the claim, `[a\]b](u)`, the link
text is terminated by the `]` even though it is preceded by a backslash — the
link-text scan honors no escapes — so the character after it is 'b' rather
than '(' and parse fails with MalformedLink at position 0, instead of
producing a link whose text contains the literal characters a]b. -/
theorem c4_counterexample : parse "[a\\]b](u)" = .error (.MalformedLink 0) := rfl

/-- C4 (amended): while parsing link text, any `]` terminates the link text —
a preceding backslash does not escape it (backslash escaping is honored only
in image alt text) — and a newline encountered before the closing `]` makes
parse fail with MalformedLink at the link's opening position; in particular
for `[a\]b](u)` parse fails with MalformedLink at position 0. -/
theorem c4_amended :
    (∀ (fuel start_pos : Nat) (text : List InlineNode) (σ : MarkdownParser),
      σ.peek = some '\n' →
      parse_link_text_loop (fuel + 1) start_pos text σ =
        .error (.MalformedLink start_pos)) ∧
    (∀ (fuel start_pos : Nat) (text : List InlineNode) (σ : MarkdownParser),
      σ.peek = some ']' →
      parse_link_text_loop (fuel + 1) start_pos text σ = .ok (text, σ)) ∧
    parse "[a\\]b](u)" = .error (.MalformedLink 0) := by
  refine ⟨?_, ?_, rfl⟩
  · intro fuel start_pos text σ h
    obtain ⟨rem, pos⟩ := σ
    cases rem with
    | nil => simp [MarkdownParser.peek] at h
    | cons c t =>
      simp only [MarkdownParser.peek, List.head?, Option.some.injEq] at h
      subst h
      simp [parse_link_text_loop, MarkdownParser.is_eof, MarkdownParser.peek]
  · intro fuel start_pos text σ h
    obtain ⟨rem, pos⟩ := σ
    cases rem with
    | nil => simp [MarkdownParser.peek] at h
    | cons c t =>
      simp only [MarkdownParser.peek, List.head?, Option.some.injEq] at h
      subst h
      simp [parse_link_text_loop, MarkdownParser.is_eof, MarkdownParser.peek]

/-- Witness for C4 (amended): the newline case and the bracket case of the
link-text loop at concrete states. -/
theorem c4_amended_witness :
    parse_link_text_loop 1 0 [] ⟨['\n'], 7⟩ = .error (.MalformedLink 0) ∧
    parse_link_text_loop 1 2 [.Text "a"] ⟨[']'], 9⟩ = .ok ([.Text "a"], ⟨[']'], 9⟩) :=
  ⟨c4_amended.1 0 0 [] ⟨['\n'], 7⟩ rfl, c4_amended.2.1 0 2 [.Text "a"] ⟨[']'], 9⟩ rfl⟩

/-- C6: in an image block's alt text a backslash escapes the immediately
following character — both characters are consumed and the escaped character
is emitted literally, so an escaped `]` does not terminate the alt text — and
parse of `![alt \[2024\]](url)` succeeds with an Image block whose alt text is
exactly `alt [2024]` and whose url is exactly `url`. -/
theorem c6_image_alt_escape :
    (∀ (c : Char) (rest : List Char) (p : Nat),
      parse_alt_text ('\\' :: c :: rest) p =
        (c :: (parse_alt_text rest (p + 2)).1, (parse_alt_text rest (p + 2)).2)) ∧
    parse "![alt \\[2024\\]](url)" = .ok ⟨[.Image "alt [2024]" "url"], []⟩ :=
  ⟨fun _ _ _ => rfl, rfl⟩

/-- C7: reaching end of input while accumulating an image block's URL (with no
newline or ')' on the way) is not an error — the URL loop returns the
characters accumulated so far — whereas the link URL loop fails with
MalformedLink in the same situation; concretely, parse of `![a](url` yields an
Image with alt text `a` and url `url`, while parse of `[a](url` fails with
MalformedLink at position 0. -/
theorem c7_image_eof_tolerant_link_eof_fails :
    (∀ (start_pos p : Nat) (url : List Char),
      (∀ c ∈ url, c ≠ ')' ∧ c ≠ '\n') →
      parse_image_url start_pos url p = .ok (url, ⟨[], p + url.length⟩) ∧
      parse_link_url start_pos url p = .error (.MalformedLink start_pos)) ∧
    parse "![a](url" = .ok ⟨[.Image "a" "url"], []⟩ ∧
    parse "[a](url" = .error (.MalformedLink 0) := by
  refine ⟨?_, rfl, rfl⟩
  intro start_pos p url h
  induction url generalizing p with
  | nil => exact ⟨rfl, rfl⟩
  | cons c rest ih =>
    obtain ⟨hc1, hc2⟩ := h c (List.mem_cons_self _ _)
    have hrest := fun x hx => h x (List.mem_cons_of_mem _ hx)
    obtain ⟨ih1, ih2⟩ := ih (p + 1) hrest
    constructor
    · simp only [parse_image_url, if_neg hc1, if_neg hc2, ih1, except_bind_ok, except_pure]
      simp only [List.length_cons, Except.ok.injEq, Prod.mk.injEq, true_and]
      congr 1
      omega
    · simp only [parse_link_url, if_neg hc1, if_neg hc2, ih2, except_bind_error]

/-- Witness for C7: the URL loops applied to the one-character URL `u`. -/
theorem c7_image_eof_tolerant_link_eof_fails_witness :
    parse_image_url 0 ['u'] 4 = .ok (['u'], ⟨[], 4 + 1⟩) ∧
    parse_link_url 0 ['u'] 4 = .error (.MalformedLink 0) :=
  c7_image_eof_tolerant_link_eof_fails.1 0 4 ['u'] (by decide)

theorem parse_heading_level_loop_fst (cs : List Char) :
    ∀ (p level : Nat), (parse_heading_level_loop cs p level).1 =
      peek_heading_level_loop cs level := by
  induction cs with
  | nil => intro p level; rfl
  | cons ch rest ih =>
    intro p level
    simp only [parse_heading_level_loop, peek_heading_level_loop]
    split
    · exact ih (p + 1) (level + 1)
    · rfl

theorem parse_heading_level_loop_le (cs : List Char) :
    ∀ (p level : Nat), level ≤ 6 → (parse_heading_level_loop cs p level).1 ≤ 6 := by
  induction cs with
  | nil => intro p level h; exact h
  | cons ch rest ih =>
    intro p level h
    simp only [parse_heading_level_loop]
    split
    · rename_i hcond
      exact ih (p + 1) (level + 1) hcond.2
    · exact h

theorem parse_heading_level_ok {σ : MarkdownParser} {r : Nat × MarkdownParser}
    (h : parse_heading_level σ = .ok r) :
    1 ≤ r.1 ∧ r.1 ≤ 6 ∧ r.1 = peek_heading_level σ := by
  simp only [parse_heading_level] at h
  split at h
  · exact absurd h (by simp)
  · rename_i hge
    simp only [Except.ok.injEq] at h
    subst h
    refine ⟨by omega, parse_heading_level_loop_le σ.rem σ.pos 0 (by omega), ?_⟩
    exact parse_heading_level_loop_fst σ.rem σ.pos 0

theorem parse_heading_line_ok {fuel : Nat} {σ : MarkdownParser}
    {r : (Nat × List InlineNode) × MarkdownParser}
    (h : parse_heading_line fuel σ = .ok r) :
    1 ≤ r.1.1 ∧ r.1.1 ≤ 6 ∧ r.1.1 = peek_heading_level σ := by
  simp only [parse_heading_line] at h
  cases h1 : parse_heading_level σ with
  | error e => rw [h1, except_bind_error] at h; exact absurd h (by simp)
  | ok hl =>
    rw [h1, except_bind_ok] at h
    cases h2 : parse_inline_content fuel
        (if hl.2.peek = some ' ' then hl.2.advance else hl.2) with
    | error e => rw [h2, except_bind_error] at h; exact absurd h (by simp)
    | ok t =>
      rw [h2, except_bind_ok, except_pure] at h
      simp only [Except.ok.injEq] at h
      obtain ⟨h3, _, _⟩ := parse_heading_level_ok h1
      subst h
      exact ⟨h3, by assumption, by assumption⟩

theorem subsWF_of_forall {level : Nat} {subs : List Section}
    (h : ∀ s ∈ subs, level < s.level ∧ sectionWF s = true) :
    subsWF level subs = true := by
  induction subs with
  | nil => rfl
  | cons s rest ih =>
    have hs := h s (List.mem_cons_self _ _)
    simp only [subsWF, Bool.and_eq_true, decide_eq_true_eq]
    exact ⟨⟨hs.1, hs.2⟩, ih fun x hx => h x (List.mem_cons_of_mem _ hx)⟩

theorem levels_ok_list_of_forall {subs : List Section}
    (h : ∀ s ∈ subs, levels_ok s = true) : levels_ok_list subs = true := by
  induction subs with
  | nil => rfl
  | cons s rest ih =>
    simp only [levels_ok_list, Bool.and_eq_true]
    exact ⟨h s (List.mem_cons_self _ _), ih fun x hx => h x (List.mem_cons_of_mem _ hx)⟩

theorem mk_section_good {level : Nat} {title : List InlineNode}
    {content : List BlockNode} {subs : List Section}
    (h1 : 1 ≤ level) (h2 : level ≤ 6)
    (h : ∀ s ∈ subs, (level < s.level ∧ sectionWF s = true) ∧ levels_ok s = true) :
    sectionWF ⟨level, title, content, subs⟩ = true ∧
      levels_ok ⟨level, title, content, subs⟩ = true := by
  constructor
  · exact subsWF_of_forall fun s hs => (h s hs).1
  · simp only [levels_ok, Bool.and_eq_true, decide_eq_true_eq]
    exact ⟨⟨h1, h2⟩, levels_ok_list_of_forall fun s hs => (h s hs).2⟩

mutual

theorem parse_section_tree_good : (fuel : Nat) → ∀ (σ : MarkdownParser)
    (out : Section × MarkdownParser), parse_section_tree fuel σ = .ok out →
    (sectionWF out.1 = true ∧ levels_ok out.1 = true) ∧
      out.1.level = peek_heading_level σ
  | 0 => by
    intro σ out h
    exact absurd h (by simp [parse_section_tree])
  | fuel + 1 => by
    intro σ out h
    simp only [parse_section_tree] at h
    cases h1 : parse_heading_line fuel σ with
    | error e => rw [h1, except_bind_error] at h; exact absurd h (by simp)
    | ok hl =>
      rw [h1, except_bind_ok] at h
      obtain ⟨hb1, hb2, hb3⟩ := parse_heading_line_ok h1
      obtain ⟨hgood, hlevel⟩ :=
        parse_section_loop_good fuel hl.1.1 hl.1.2 [] [] hl.2 out hb1 hb2
          (by intro s hs; cases hs) h
      exact ⟨hgood, by rw [hlevel, hb3]⟩

theorem parse_section_loop_good : (fuel : Nat) → ∀ (level : Nat)
    (title : List InlineNode) (content : List BlockNode) (subs : List Section)
    (σ : MarkdownParser) (out : Section × MarkdownParser),
    1 ≤ level → level ≤ 6 →
    (∀ s ∈ subs, (level < s.level ∧ sectionWF s = true) ∧ levels_ok s = true) →
    parse_section_loop fuel level title content subs σ = .ok out →
    (sectionWF out.1 = true ∧ levels_ok out.1 = true) ∧ out.1.level = level
  | 0 => by
    intro level title content subs σ out _ _ _ h
    exact absurd h (by simp [parse_section_loop])
  | fuel + 1 => by
    intro level title content subs σ out h1 h2 hsubs h
    simp only [parse_section_loop] at h
    split at h
    · simp only [Except.ok.injEq] at h
      subst h
      exact ⟨mk_section_good h1 h2 hsubs, rfl⟩
    · split at h
      · split at h
        · cases h3 : parse_section_tree fuel (skip_empty_lines σ.rem σ.pos) with
          | error e => rw [h3, except_bind_error] at h; exact absurd h (by simp)
          | ok r =>
            rw [h3, except_bind_ok] at h
            obtain ⟨hrgood, hrlevel⟩ := parse_section_tree_good fuel _ r h3
            rename_i hlt
            refine parse_section_loop_good fuel level title content
              (subs ++ [r.1]) r.2 out h1 h2 ?_ h
            intro s hs
            rcases List.mem_append.mp hs with hs | hs
            · exact hsubs s hs
            · rcases List.mem_singleton.mp hs with rfl
              exact ⟨⟨by rw [hrlevel]; exact hlt, hrgood.1⟩, hrgood.2⟩
        · simp only [Except.ok.injEq] at h
          subst h
          exact ⟨mk_section_good h1 h2 hsubs, rfl⟩
      · cases h3 : parse_block fuel (skip_empty_lines σ.rem σ.pos) with
        | error e => rw [h3, except_bind_error] at h; exact absurd h (by simp)
        | ok r =>
          rw [h3, except_bind_ok] at h
          exact parse_section_loop_good fuel level title (content ++ [r.1]) subs
            r.2 out h1 h2 hsubs h

end

theorem parse_all_sections_good : (fuel : Nat) → ∀ (acc : List Section)
    (σ : MarkdownParser) (out : List Section × MarkdownParser),
    (∀ s ∈ acc, sectionWF s = true ∧ levels_ok s = true) →
    parse_all_sections fuel acc σ = .ok out →
    ∀ s ∈ out.1, sectionWF s = true ∧ levels_ok s = true
  | 0 => by
    intro acc σ out _ h
    exact absurd h (by simp [parse_all_sections])
  | fuel + 1 => by
    intro acc σ out hacc h
    simp only [parse_all_sections] at h
    split at h
    · simp only [Except.ok.injEq] at h
      subst h
      exact hacc
    · split at h
      · simp only [Except.ok.injEq] at h
        subst h
        exact hacc
      · split at h
        · cases h3 : parse_section_tree fuel (skip_empty_lines σ.rem σ.pos) with
          | error e => rw [h3, except_bind_error] at h; exact absurd h (by simp)
          | ok r =>
            rw [h3, except_bind_ok] at h
            obtain ⟨hrgood, _⟩ := parse_section_tree_good fuel _ r h3
            refine parse_all_sections_good fuel (acc ++ [r.1]) r.2 out ?_ h
            intro s hs
            rcases List.mem_append.mp hs with hs | hs
            · exact hacc s hs
            · rcases List.mem_singleton.mp hs with rfl
              exact hrgood
        · simp only [Except.ok.injEq] at h
          subst h
          exact hacc

theorem parse_document_good : (fuel : Nat) → ∀ (content : List BlockNode)
    (σ : MarkdownParser) (document : Document),
    parse_document fuel content σ = .ok document →
    ∀ s ∈ document.sections, sectionWF s = true ∧ levels_ok s = true
  | 0 => by
    intro content σ document h
    exact absurd h (by simp [parse_document])
  | fuel + 1 => by
    intro content σ document h
    simp only [parse_document] at h
    split at h
    · simp only [Except.ok.injEq] at h
      subst h
      intro s hs
      cases hs
    · split at h
      · simp only [Except.ok.injEq] at h
        subst h
        intro s hs
        cases hs
      · split at h
        · cases h3 : parse_all_sections fuel [] (skip_empty_lines σ.rem σ.pos) with
          | error e => rw [h3, except_bind_error] at h; exact absurd h (by simp)
          | ok r =>
            rw [h3, except_bind_ok, except_pure] at h
            simp only [Except.ok.injEq] at h
            subst h
            exact parse_all_sections_good fuel [] _ r (by intro s hs; cases hs) h3
        · cases h3 : parse_block fuel (skip_empty_lines σ.rem σ.pos) with
          | error e => rw [h3, except_bind_error] at h; exact absurd h (by simp)
          | ok r =>
            rw [h3, except_bind_ok] at h
            exact parse_document_good fuel (content ++ [r.1]) r.2 document h

theorem render_heading_ok {level : Nat} (title : List InlineNode)
    (h1 : 1 ≤ level) (h2 : level ≤ 6) :
    ∃ s, render_heading level title = .ok s := by
  simp only [render_heading]
  rw [if_neg (by omega)]
  exact ⟨_, rfl⟩

mutual

theorem render_section_ok : (sec : Section) → levels_ok sec = true →
    ∃ s, render_section sec = .ok s
  | ⟨level, title, content, subsections⟩ => by
    intro h
    simp only [levels_ok, Bool.and_eq_true, decide_eq_true_eq] at h
    obtain ⟨⟨h1, h2⟩, h3⟩ := h
    obtain ⟨hs, hhs⟩ := render_heading_ok title h1 h2
    obtain ⟨ss, hss⟩ := render_sections_ok subsections h3
    exact ⟨_, by rw [render_section, hhs, except_bind_ok, hss, except_bind_ok, except_pure]⟩

theorem render_sections_ok : (l : List Section) → levels_ok_list l = true →
    ∃ s, render_sections l = .ok s
  | [] => fun _ => ⟨"", rfl⟩
  | sec :: rest => by
    intro h
    simp only [levels_ok_list, Bool.and_eq_true] at h
    obtain ⟨sa, ha⟩ := render_section_ok sec h.1
    obtain ⟨sb, hb⟩ := render_sections_ok rest h.2
    exact ⟨_, by rw [render_sections, ha, except_bind_ok, hb, except_bind_ok, except_pure]⟩

end

theorem write_html_ok (document : Document)
    (h : ∀ s ∈ document.sections, levels_ok s = true) :
    except_is_ok (write_html document) = true := by
  obtain ⟨ss, hss⟩ := render_sections_ok document.sections (levels_ok_list_of_forall h)
  rw [write_html, hss, except_bind_ok, except_pure]
  rfl

/-- C2: for every input text on which parse succeeds, the resulting Document
satisfies the tree invariant — every Section in the subsections list of a
parent has a level strictly greater than the parent's, recursively — so a
heading of level less than or equal to a section's level is never placed
inside that section. -/
theorem c2_section_tree_invariant :
    ∀ (text : String) (document : Document), parse text = .ok document →
    ∀ sec ∈ document.sections, sectionWF sec = true :=
  fun _ document h sec hm =>
    (parse_document_good _ [] ⟨_, 0⟩ document h sec hm).1

/-- Witness for C2: parse of "# A\n## B" succeeds and its single top-level
section satisfies the invariant. -/
theorem c2_section_tree_invariant_witness :
    sectionWF ⟨1, [.Text "A"], [], [⟨2, [.Text "B"], [], []⟩]⟩ = true :=
  c2_section_tree_invariant "# A\n## B"
    ⟨[], [⟨1, [.Text "A"], [], [⟨2, [.Text "B"], [], []⟩]⟩]⟩ rfl
    ⟨1, [.Text "A"], [], [⟨2, [.Text "B"], [], []⟩]⟩ (List.Mem.head _)

/-- C3: for every input text on which parse succeeds, every Section of the
resulting Document has a level between 1 and 6 inclusive, and rendering that
Document succeeds — it never returns the InvalidHeadingLevel error (the only
error the renderer has), so the renderer's invalid-level branch is unreachable
on parser output. -/
theorem c3_levels_in_range_render_ok :
    ∀ (text : String) (document : Document), parse text = .ok document →
    (∀ sec ∈ document.sections, levels_ok sec = true) ∧
      except_is_ok (write_html document) = true := by
  intro text document h
  have hall := parse_document_good _ [] ⟨_, 0⟩ document h
  exact ⟨fun sec hm => (hall sec hm).2, write_html_ok document fun sec hm => (hall sec hm).2⟩

/-- Witness for C3: parse of "# A\n## B" succeeds; its section's levels are in
range and rendering the document succeeds. -/
theorem c3_levels_in_range_render_ok_witness :
    levels_ok ⟨1, [.Text "A"], [], [⟨2, [.Text "B"], [], []⟩]⟩ = true ∧
    except_is_ok (write_html ⟨[], [⟨1, [.Text "A"], [], [⟨2, [.Text "B"], [], []⟩]⟩]⟩) = true :=
  ⟨(c3_levels_in_range_render_ok "# A\n## B"
      ⟨[], [⟨1, [.Text "A"], [], [⟨2, [.Text "B"], [], []⟩]⟩]⟩ rfl).1
    ⟨1, [.Text "A"], [], [⟨2, [.Text "B"], [], []⟩]⟩ (List.Mem.head _),
   (c3_levels_in_range_render_ok "# A\n## B"
      ⟨[], [⟨1, [.Text "A"], [], [⟨2, [.Text "B"], [], []⟩]⟩]⟩ rfl).2⟩

theorem ptu_consume (stops : List (List Char))
    (hheads : ∀ s ∈ stops, ∃ c cs, s = c :: cs ∧ (c = '*' ∨ c = '[' ∨ c = '\n'))
    (hnl : ['\n'] ∈ stops) :
    ∀ (a b : List Char) (p : Nat),
      (∀ c ∈ a, c ≠ '\n' ∧ c ≠ '*' ∧ c ≠ '[') →
      (b = [] ∨ ∃ b2, b = '\n' :: b2) →
      parse_text_until stops (a ++ b) p = (a, ⟨b, p + a.length⟩) := by
  intro a
  induction a with
  | nil =>
    intro b p ha hb
    rcases hb with rfl | ⟨b2, rfl⟩
    · simp [parse_text_until]
    · have hsw : MarkdownParser.starts_with ⟨'\n' :: b2, p⟩ ['\n'] = true := by
        simp [MarkdownParser.starts_with]
      have hany : (stops.any fun s =>
          MarkdownParser.starts_with ⟨'\n' :: b2, p⟩ s) = true :=
        List.any_eq_true.mpr ⟨['\n'], hnl, hsw⟩
      simp [parse_text_until, hany]
  | cons x a2 ih =>
    intro b p ha hb
    obtain ⟨hx1, hx2, hx3⟩ := ha x (List.mem_cons_self _ _)
    have hrec := ih b (p + 1) (fun c hc => ha c (List.mem_cons_of_mem _ hc)) hb
    have step : parse_text_until stops (x :: (a2 ++ b)) p =
        (x :: (parse_text_until stops (a2 ++ b) (p + 1)).1,
         (parse_text_until stops (a2 ++ b) (p + 1)).2) := by
      simp only [parse_text_until]
      rw [if_neg]
      intro hcc
      obtain ⟨s, hs, hsw⟩ := List.any_eq_true.mp hcc
      obtain ⟨c, cs, rfl, hc⟩ := hheads s hs
      simp only [MarkdownParser.starts_with, List.length_cons, List.take_succ_cons,
        decide_eq_true_eq, List.cons.injEq] at hsw
      rcases hc with rfl | rfl | rfl
      · exact hx2 hsw.1
      · exact hx3 hsw.1
      · exact hx1 hsw.1
    rw [List.cons_append, step, hrec]
    simp only [Prod.mk.injEq, MarkdownParser.mk.injEq, List.length_cons, true_and]
    omega

/-- C5 counterexample: for the input `**a *b` the opening `**` at position 0
is never closed before the end of input, yet parse does not fail with
UnclosedDelimiter for `**` at position 0 as the claim requires: the `*` inside
the bold content opens a nested italic scan, which hits the end of input first
and reports UnclosedDelimiter for `*` at position 4. -/
theorem c5_counterexample : parse "**a *b" = .error (.UnclosedDelimiter "*" 4) := rfl

/-- C5 (amended): when an opening `**` is not closed before the next newline
or the end of input and the bold content up to there contains no `*` and no
`[` (so no nested italic or link scan intervenes and fails first), the bold
scan fails with UnclosedDelimiter whose delimiter is `**` and whose position
is that of the opening delimiter; in particular parse("**unclosed bold")
returns UnclosedDelimiter for `**` at position 0. -/
theorem c5_amended :
    (∀ (fuel p : Nat) (a b : List Char),
      (∀ c ∈ a, c ≠ '\n' ∧ c ≠ '*' ∧ c ≠ '[') →
      (b = [] ∨ ∃ b2, b = '\n' :: b2) →
      parse_bold (fuel + 3) ⟨'*' :: '*' :: (a ++ b), p⟩ =
        .error (.UnclosedDelimiter "**" p)) ∧
    parse "**unclosed bold" = .error (.UnclosedDelimiter "**" 0) := by
  refine ⟨?_, rfl⟩
  intro fuel p a b ha hb
  have hend : ∀ (g q : Nat) (children : List InlineNode),
      parse_bold_loop (g + 1) p children ⟨b, q⟩ =
        .error (.UnclosedDelimiter "**" p) := by
    intro g q children
    rcases hb with rfl | ⟨b2, rfl⟩
    · simp [parse_bold_loop, MarkdownParser.is_eof]
    · simp [parse_bold_loop, MarkdownParser.is_eof, MarkdownParser.starts_with,
        MarkdownParser.peek, BOLD_DELIM]
  have hstart : parse_bold (fuel + 3) ⟨'*' :: '*' :: (a ++ b), p⟩ =
      parse_bold_loop (fuel + 2) p [] ⟨a ++ b, p + 2⟩ := rfl
  rw [hstart]
  cases a with
  | nil =>
    simp only [List.nil_append]
    exact hend (fuel + 1) (p + 2) []
  | cons x a2 =>
    obtain ⟨hx1, hx2, hx3⟩ := ha x (List.mem_cons_self _ _)
    have hptu := ptu_consume [BOLD_DELIM, ['*'], ['['], ['\n']]
      (by
        intro s hs
        simp only [BOLD_DELIM, List.mem_cons, List.not_mem_nil, or_false] at hs
        rcases hs with rfl | rfl | rfl | rfl
        · exact ⟨'*', ['*'], rfl, .inl rfl⟩
        · exact ⟨'*', [], rfl, .inl rfl⟩
        · exact ⟨'[', [], rfl, .inr (.inl rfl)⟩
        · exact ⟨'\n', [], rfl, .inr (.inr rfl)⟩)
      (by decide)
      (x :: a2) b (p + 2) ha hb
    rw [List.cons_append] at hptu
    have step : parse_bold_loop (fuel + 2) p [] ⟨x :: (a2 ++ b), p + 2⟩ =
        parse_bold_loop (fuel + 1) p [.Text (String.mk (x :: a2))]
          ⟨b, p + 2 + (x :: a2).length⟩ := by
      rw [parse_bold_loop]
      rw [if_neg (by simp [MarkdownParser.is_eof])]
      rw [if_neg (by
        simp [MarkdownParser.starts_with, BOLD_DELIM, List.take_succ_cons, hx2])]
      rw [if_neg (by simp [MarkdownParser.peek, hx1])]
      rw [if_neg (by simp [MarkdownParser.peek, hx2])]
      rw [if_neg (by simp [MarkdownParser.peek, hx3])]
      simp only [hptu, List.isEmpty_cons, Bool.false_eq_true, if_false,
        List.nil_append]
    rw [List.cons_append, step]
    exact hend fuel (p + 2 + (x :: a2).length) [.Text (String.mk (x :: a2))]

/-- Witness for C5 (amended): the bold scan applied at a state holding
`**x` reports the unclosed `**` at the recorded opening position 5. -/
theorem c5_amended_witness :
    parse_bold 3 ⟨['*', '*', 'x'], 5⟩ = .error (.UnclosedDelimiter "**" 5) :=
  c5_amended.1 0 5 ['x'] [] (by decide) (.inl rfl)

theorem pas_prefix : (fuel : Nat) → ∀ (acc : List Section) (σ : MarkdownParser)
    (out : List Section × MarkdownParser),
    parse_all_sections fuel acc σ = .ok out → ∃ tl, out.1 = acc ++ tl
  | 0 => by
    intro acc σ out h
    exact absurd h (by simp [parse_all_sections])
  | fuel + 1 => by
    intro acc σ out h
    simp only [parse_all_sections] at h
    split at h
    · simp only [Except.ok.injEq] at h
      subst h
      exact ⟨[], (List.append_nil acc).symm⟩
    · split at h
      · simp only [Except.ok.injEq] at h
        subst h
        exact ⟨[], (List.append_nil acc).symm⟩
      · split at h
        · cases h3 : parse_section_tree fuel (skip_empty_lines σ.rem σ.pos) with
          | error e => rw [h3, except_bind_error] at h; exact absurd h (by simp)
          | ok r =>
            rw [h3, except_bind_ok] at h
            obtain ⟨tl, htl⟩ := pas_prefix fuel (acc ++ [r.1]) r.2 out h
            exact ⟨[r.1] ++ tl, by rw [htl, List.append_assoc]⟩
        · simp only [Except.ok.injEq] at h
          subst h
          exact ⟨[], (List.append_nil acc).symm⟩

theorem psl_shape : (fuel : Nat) → ∀ (level : Nat) (title : List InlineNode)
    (content : List BlockNode) (subs : List Section) (σ : MarkdownParser)
    (out : Section × MarkdownParser),
    parse_section_loop fuel level title content subs σ = .ok out →
    out.1.level = level ∧ out.1.title = title
  | 0 => by
    intro level title content subs σ out h
    exact absurd h (by simp [parse_section_loop])
  | fuel + 1 => by
    intro level title content subs σ out h
    simp only [parse_section_loop] at h
    split at h
    · simp only [Except.ok.injEq] at h
      subst h
      exact ⟨rfl, rfl⟩
    · split at h
      · split at h
        · cases h3 : parse_section_tree fuel (skip_empty_lines σ.rem σ.pos) with
          | error e => rw [h3, except_bind_error] at h; exact absurd h (by simp)
          | ok r =>
            rw [h3, except_bind_ok] at h
            exact psl_shape fuel level title content (subs ++ [r.1]) r.2 out h
        · simp only [Except.ok.injEq] at h
          subst h
          exact ⟨rfl, rfl⟩
      · cases h3 : parse_block fuel (skip_empty_lines σ.rem σ.pos) with
        | error e => rw [h3, except_bind_error] at h; exact absurd h (by simp)
        | ok r =>
          rw [h3, except_bind_ok] at h
          exact psl_shape fuel level title (content ++ [r.1]) subs r.2 out h

theorem phl_loop_six (tail : List Char) (p : Nat) :
    parse_heading_level_loop ('#' :: '#' :: '#' :: '#' :: '#' :: '#' :: tail) p 0 =
      (6, ⟨tail, p + 6⟩) := by
  cases tail with
  | nil =>
    simp only [parse_heading_level_loop]
    norm_num
  | cons c t =>
    simp only [parse_heading_level_loop]
    norm_num

theorem ptxi_append (a : List Char) : ∀ (b : List Char) (p : Nat),
    (∀ c ∈ a, ¬(c = '\n' ∨ c = '*' ∨ c = '[')) →
    parse_text_inline (a ++ b) p =
      (a ++ (parse_text_inline b (p + a.length)).1,
       (parse_text_inline b (p + a.length)).2) := by
  induction a with
  | nil =>
    intro b p _
    simp
  | cons x a2 ih =>
    intro b p ha
    have hx := ha x (List.mem_cons_self _ _)
    have hrec := ih b (p + 1) (fun c hc => ha c (List.mem_cons_of_mem _ hc))
    have harith : p + (x :: a2).length = p + 1 + a2.length := by
      rw [List.length_cons]
      omega
    rw [harith, List.cons_append, parse_text_inline, if_neg hx, hrec, List.cons_append]

theorem pic_hash_first (g m : Nat) (rest : List Char) (p : Nat)
    (out : List InlineNode × MarkdownParser)
    (h : parse_inline_content g ⟨List.replicate (m + 1) '#' ++ rest, p⟩ = .ok out) :
    ∃ q more, out.1 =
      InlineNode.Text (String.mk (List.replicate (m + 1) '#' ++ q)) :: more := by
  cases g with
  | zero => exact absurd h (by simp [parse_inline_content])
  | succ g1 =>
    have hcons : List.replicate (m + 1) '#' ++ rest =
        '#' :: (List.replicate m '#' ++ rest) := by
      rw [List.replicate_succ, List.cons_append]
    have hpti := ptxi_append (List.replicate (m + 1) '#') rest p (by
      intro c hc
      rw [List.eq_of_mem_replicate hc]
      decide)
    rw [parse_inline_content] at h
    rw [if_neg (by rw [hcons]; simp [MarkdownParser.is_eof])] at h
    rw [if_neg (by rw [hcons]; simp [MarkdownParser.peek])] at h
    rw [if_neg (by
      rw [hcons]
      simp [MarkdownParser.starts_with, BOLD_DELIM, List.take_succ_cons])] at h
    rw [if_neg (by rw [hcons]; simp [MarkdownParser.peek])] at h
    rw [if_neg (by rw [hcons]; simp [MarkdownParser.peek])] at h
    rw [show (⟨List.replicate (m + 1) '#' ++ rest, p⟩ : MarkdownParser).rem =
      List.replicate (m + 1) '#' ++ rest from rfl] at h
    rw [show (⟨List.replicate (m + 1) '#' ++ rest, p⟩ : MarkdownParser).pos = p from rfl] at h
    rw [hpti] at h
    simp only [] at h
    cases hrr : parse_inline_content g1
        (parse_text_inline rest (p + (List.replicate (m + 1) '#').length)).2 with
    | error e => rw [hrr, except_bind_error] at h; exact absurd h (by simp)
    | ok rr =>
      rw [hrr, except_bind_ok, except_pure] at h
      simp only [Except.ok.injEq] at h
      have hne : (List.replicate (m + 1) '#' ++
          (parse_text_inline rest (p + (List.replicate (m + 1) '#').length)).1).isEmpty
          = false := by
        rw [List.replicate_succ, List.cons_append]
        rfl
      rw [hne] at h
      subst h
      simp only [Bool.false_eq_true, if_false]
      exact ⟨_, rr.1, rfl⟩

theorem c8_core : ∀ (fuel m : Nat) (rest : List Char) (document : Document),
    parse_document fuel [] ⟨List.replicate (m + 7) '#' ++ rest, 0⟩ = .ok document →
    ∃ sec secs t more, document.sections = sec :: secs ∧ sec.level = 6 ∧
      sec.title = InlineNode.Text t :: more ∧
      List.IsPrefix (List.replicate (m + 1) '#') t.data := by
  intro fuel m rest document h
  have hsix : List.replicate (m + 7) '#' ++ rest =
      '#' :: '#' :: '#' :: '#' :: '#' :: '#' ::
        (List.replicate (m + 1) '#' ++ rest) := by
    simp [List.replicate_succ, List.cons_append]
  rw [hsix] at h
  have hskip : skip_empty_lines
      ('#' :: '#' :: '#' :: '#' :: '#' :: '#' :: (List.replicate (m + 1) '#' ++ rest)) 0 =
      ⟨'#' :: '#' :: '#' :: '#' :: '#' :: '#' :: (List.replicate (m + 1) '#' ++ rest), 0⟩ := by
    rw [skip_empty_lines]
    exact if_neg (by decide)
  cases fuel with
  | zero => exact absurd h (by simp [parse_document])
  | succ f1 =>
    rw [parse_document] at h
    rw [if_neg (by simp [MarkdownParser.is_eof])] at h
    simp only [hskip] at h
    rw [if_neg (by simp [MarkdownParser.is_eof])] at h
    rw [if_pos (by rfl)] at h
    cases hall : parse_all_sections f1 []
        ⟨'#' :: '#' :: '#' :: '#' :: '#' :: '#' ::
          (List.replicate (m + 1) '#' ++ rest), 0⟩ with
    | error e => rw [hall, except_bind_error] at h; exact absurd h (by simp)
    | ok r =>
      rw [hall, except_bind_ok, except_pure] at h
      simp only [Except.ok.injEq] at h
      subst h
      cases f1 with
      | zero => exact absurd hall (by simp [parse_all_sections])
      | succ f2 =>
        rw [parse_all_sections] at hall
        rw [if_neg (by simp [MarkdownParser.is_eof])] at hall
        simp only [hskip] at hall
        rw [if_neg (by simp [MarkdownParser.is_eof])] at hall
        rw [if_pos (by rfl)] at hall
        cases hst : parse_section_tree f2
            ⟨'#' :: '#' :: '#' :: '#' :: '#' :: '#' ::
              (List.replicate (m + 1) '#' ++ rest), 0⟩ with
        | error e => rw [hst, except_bind_error] at hall; exact absurd hall (by simp)
        | ok rs =>
          rw [hst, except_bind_ok] at hall
          obtain ⟨tl, htl⟩ := pas_prefix f2 ([] ++ [rs.1]) rs.2 r hall
          cases f2 with
          | zero => exact absurd hst (by simp [parse_section_tree])
          | succ f3 =>
            rw [parse_section_tree] at hst
            cases hhl : parse_heading_line f3
                ⟨'#' :: '#' :: '#' :: '#' :: '#' :: '#' ::
                  (List.replicate (m + 1) '#' ++ rest), 0⟩ with
            | error e => rw [hhl, except_bind_error] at hst; exact absurd hst (by simp)
            | ok hl =>
              rw [hhl, except_bind_ok] at hst
              obtain ⟨hlev, htitle⟩ := psl_shape f3 hl.1.1 hl.1.2 [] [] hl.2 rs hst
              have hplev : parse_heading_level
                  ⟨'#' :: '#' :: '#' :: '#' :: '#' :: '#' ::
                    (List.replicate (m + 1) '#' ++ rest), 0⟩ =
                  .ok (6, ⟨List.replicate (m + 1) '#' ++ rest, 6⟩) := by
                simp only [parse_heading_level, phl_loop_six]
                norm_num
              rw [parse_heading_line, hplev, except_bind_ok] at hhl
              rw [if_neg (by
                rw [List.replicate_succ, List.cons_append]
                simp [MarkdownParser.peek])] at hhl
              simp only [] at hhl
              cases hic : parse_inline_content f3
                  ⟨List.replicate (m + 1) '#' ++ rest, 6⟩ with
              | error e => rw [hic, except_bind_error] at hhl; exact absurd hhl (by simp)
              | ok tt =>
                rw [hic, except_bind_ok, except_pure] at hhl
                simp only [Except.ok.injEq] at hhl
                obtain ⟨q, more, hshape⟩ := pic_hash_first f3 m rest 6 tt hic
                refine ⟨rs.1, tl, String.mk (List.replicate (m + 1) '#' ++ q), more,
                  ?_, ?_, ?_, ?_⟩
                · simp only [htl, List.nil_append, List.cons_append]
                · rw [hlev, ← hhl]
                · rw [htitle, ← hhl]
                  exact hshape
                · exact ⟨q, rfl⟩

/-- C8 counterexample: for an input line beginning with seven `#` characters
whose title goes on to contain an unclosed `**`, parse fails entirely (with
UnclosedDelimiter for `**` at position 7) and produces no Section at all, so
the claim's unconditional "parse produces a Section of level exactly 6" does
not hold for every input line beginning with seven or more `#`. -/
theorem c8_counterexample : parse "#######**x" = .error (.UnclosedDelimiter "**" 7) := rfl

/-- C8 (amended): the heading-level scan stops counting at 6 and consumes no
`#` beyond the sixth: for every input beginning with seven or more consecutive
`#` characters on which parse succeeds, the first section of the resulting
document has level exactly 6 and its title starts with a Text node whose
content begins with the leftover `#` characters (no space is skipped there,
since the character after the sixth `#` is `#`, not a space). -/
theorem c8_amended :
    ∀ (m : Nat) (rest : List Char) (document : Document),
      parse (String.mk (List.replicate (m + 7) '#' ++ rest)) = .ok document →
      ∃ sec secs t more, document.sections = sec :: secs ∧ sec.level = 6 ∧
        sec.title = InlineNode.Text t :: more ∧
        List.IsPrefix (List.replicate (m + 1) '#') t.data := by
  intro m rest document h
  exact c8_core _ m rest document h

/-- Witness for C8 (amended): parse of "#######x" (seven `#` then `x`)
succeeds, and the theorem yields the level-6 section whose title text starts
with the leftover `#`. -/
theorem c8_amended_witness :
    ∃ sec secs t more,
      (Document.mk [] [Section.mk 6 [InlineNode.Text "#x"] [] []]).sections
          = sec :: secs ∧
        sec.level = 6 ∧ sec.title = InlineNode.Text t :: more ∧
        List.IsPrefix (List.replicate 1 '#') t.data :=
  c8_amended 0 ['x'] ⟨[], [⟨6, [.Text "#x"], [], []⟩]⟩ rfl

end Wtf
